import Mathlib

/-!
Verification of the 2D convex hull implementation (Graham Scan).

The embedding below translates `src/utils/geometry.py` and
`src/convex_hull/convex_hull_2d.py` into Lean. Python floats are
idealised as exact rationals (ℚ); `math.sqrt` and `math.atan2` are
transcendental over ℚ, so wherever the source only *compares* distances
or polar angles the embedding compares the squared distances and the
cross-product sign instead, which induce the very same order for the
vectors that occur (all of them lie in the closed upper half plane with
respect to the pivot; see `sortRel` and the bridging lemmas). Values
that the source *returns* (the perimeter, built from `math.sqrt`) are
embedded over ℝ.
-/

/-- Structure `Point2D` from `src/utils/geometry.py`: a point of the plane with
fields `x` and `y`. Structure equality is exact coordinate equality,
matching the source `__eq__`. -/
structure Point2D where
  x : ℚ
  y : ℚ
deriving DecidableEq, Repr

/-- The cross-product expression computed inside `orientation`:
`(q.y - p.y) * (r.x - q.x) - (q.x - p.x) * (r.y - q.y)`. -/
def orientationVal (p q r : Point2D) : ℚ :=
  (q.y - p.y) * (r.x - q.x) - (q.x - p.x) * (r.y - q.y)

/-- Function `orientation(p, q, r)` from `src/utils/geometry.py`. Returns the
source's integer codes: `0` = collinear, `1` = clockwise,
`2` = counterclockwise. -/
def orientation (p q r : Point2D) : ℕ :=
  if orientationVal p q r = 0 then 0
  else if 0 < orientationVal p q r then 1 else 2

/-- Function `ccw(p1, p2, p3)` from `src/utils/geometry.py`:
`orientation(p1, p2, p3) == 2`. -/
def ccw (p1 p2 p3 : Point2D) : Bool :=
  decide (orientation p1 p2 p3 = 2)

/-- Squared Euclidean distance. The source's `Point2D.distance_to` is
`sqrt` of this quantity; comparisons of distances in the sort key and in
`_remove_same_angle_points` are embedded as comparisons of `distSq`,
which `sqrt`'s strict monotonicity makes equivalent
(`distance_to_le_iff`, `distance_to_lt_iff`). -/
def distSq (p q : Point2D) : ℚ :=
  (p.x - q.x) * (p.x - q.x) + (p.y - q.y) * (p.y - q.y)

/-- Method `Point2D.distance_to` from `src/utils/geometry.py`:
the Euclidean distance `sqrt(dx*dx + dy*dy)`, embedded over ℝ. -/
noncomputable def distance_to (p q : Point2D) : ℝ :=
  Real.sqrt ((distSq p q : ℚ) : ℝ)

/-- Strict order on the Python key tuple `(p.y, p.x)` used by
`min(self.points, key=lambda p: (p.y, p.x))`: lexicographic, y first. -/
def yxLt (p q : Point2D) : Prop :=
  p.y < q.y ∨ (p.y = q.y ∧ p.x < q.x)

instance : DecidableRel yxLt := fun p q => by
  unfold yxLt; infer_instance

/-- Python's `min(points, key=lambda p: (p.y, p.x))`: fold keeping the
first element whose key is minimal (Python replaces the current minimum
only on a strictly smaller key). The `[]` case never occurs in the
program (the constructor rejects fewer than 3 points). -/
def pyMinYX : List Point2D → Point2D
  | [] => ⟨0, 0⟩
  | p :: l => l.foldl (fun m q => if yxLt q m then q else m) p

/-- The cross product of the vectors `p - s` and `q - s`. For vectors in
the closed upper half plane at `s` (which is all that `graham_scan`
ever compares, `s` being the minimum-(y,x) pivot), its sign decides the
`atan2` polar-angle order: positive iff `polar_angle(s,p) <
polar_angle(s,q)`, zero iff the angles are equal. -/
def cross2 (s p q : Point2D) : ℚ :=
  (p.x - s.x) * (q.y - s.y) - (p.y - s.y) * (q.x - s.x)

/-- The sort relation of `graham_scan`'s
`sorted(other_points, key=lambda p: (polar_angle(start, p), start.distance_to(p)))`:
lexicographic on (polar angle, distance), embedded exactly via the
cross-product sign and squared distances. -/
def sortRel (s : Point2D) (p q : Point2D) : Prop :=
  0 < cross2 s p q ∨ (cross2 s p q = 0 ∧ distSq s p ≤ distSq s q)

instance (s : Point2D) : DecidableRel (sortRel s) := fun p q => by
  unfold sortRel; infer_instance

/-- One step of the loop in `ConvexHull2D._remove_same_angle_points`.
The accumulator is the `filtered` list reversed (head = most recent).
Equal polar angle (the source's `abs(angle_prev - angle_curr) < 1e-9`)
is embedded as `cross2 s last p = 0`; "keep the farther" compares
distances, embedded as squared distances. -/
def collapseStep (s : Point2D) (acc : List Point2D) (p : Point2D) : List Point2D :=
  match acc with
  | [] => [p]
  | last :: rest =>
    if cross2 s last p = 0 then
      if distSq s last < distSq s p then p :: rest else last :: rest
    else p :: last :: rest

/-- Method `ConvexHull2D._remove_same_angle_points(origin, points)`. -/
def removeSameAnglePoints (s : Point2D) (l : List Point2D) : List Point2D :=
  (l.foldl (collapseStep s) []).reverse

/-- The body of `graham_scan`'s stack loop for one candidate `p`:
`while len(hull) > 1 and not ccw(hull[-2], hull[-1], p): hull.pop()`
followed by `hull.append(p)`. The stack is kept reversed
(head = top of the Python list). -/
def scanStep (p : Point2D) : List Point2D → List Point2D
  | b :: a :: rest => if ccw a b p then p :: b :: a :: rest else scanStep p (a :: rest)
  | acc => p :: acc

/-- The local `start` of `graham_scan`:
`min(self.points, key=lambda p: (p.y, p.x))`. -/
def hullStart (points : List Point2D) : Point2D :=
  pyMinYX points

/-- The local `other_points` of `graham_scan`:
`[p for p in self.points if p != start]`. -/
def hullOthers (points : List Point2D) : List Point2D :=
  points.filter (fun p => decide (p ≠ hullStart points))

/-- The local `sorted_points` of `graham_scan`: Python's stable `sorted`
by the key `(polar_angle(start, p), start.distance_to(p))`. Elements
with equal keys are equal points (same direction and same length from
`start` force the same vector), so any stable-or-not sort by this key
produces the same list; `List.insertionSort` is one such sort. -/
def hullSorted (points : List Point2D) : List Point2D :=
  List.insertionSort (sortRel (hullStart points)) (hullOthers points)

/-- The local `filtered_points` of `graham_scan`. -/
def hullFiltered (points : List Point2D) : List Point2D :=
  removeSameAnglePoints (hullStart points) (hullSorted points)

/-- Function `graham_scan` as a function of the stored point list.
Step for step: pivot = `min(points, key=(y,x))`; sort the points other
than the pivot by (polar angle, distance); collapse equal angles keeping
the farther point; if fewer than 2 points remain return
`[start] + filtered`; otherwise run the stack scan seeded with
`[start, filtered[0], filtered[1]]` (the stack is kept reversed and
reversed back at the end). -/
def grahamScan (points : List Point2D) : List Point2D :=
  match hullFiltered points with
  | f0 :: f1 :: rest =>
    (rest.foldl (fun h p => scanStep p h) [f1, f0, hullStart points]).reverse
  | small => hullStart points :: small

/-- The two failure modes of the hull code: `ValueError` in
`ConvexHull2D.__init__` (fewer than 3 points) and `ValueError` in
`compute_convex_hull` (unknown algorithm name). -/
inductive HullError where
  | invalidInput
  | unknownAlgorithm
deriving DecidableEq, Repr

/-- The state of a `ConvexHull2D` instance: the stored input points and
the cached `self.hull` (initially `[]`). -/
structure ConvexHull2D where
  points : List Point2D
  hull : List Point2D
deriving DecidableEq, Repr

/-- Constructor `ConvexHull2D.__init__`: raises `ValueError` iff the list has fewer
than 3 points; otherwise stores the points unchanged and sets
`self.hull = []`. -/
def ConvexHull2D.init (pts : List Point2D) : Except HullError ConvexHull2D :=
  if pts.length < 3 then Except.error HullError.invalidInput
  else Except.ok { points := pts, hull := [] }

/-- The method `ConvexHull2D.graham_scan`: computes the hull from
`self.points`, stores it in `self.hull`, and returns it. -/
def ConvexHull2D.graham_scan (st : ConvexHull2D) : List Point2D × ConvexHull2D :=
  let h := grahamScan st.points
  (h, { st with hull := h })

/-- Method `ConvexHull2D.compute_hull`: the `@measure_time` wrapper only prints
the elapsed wall-clock time and returns `self.graham_scan()` unchanged. -/
def ConvexHull2D.compute_hull (st : ConvexHull2D) : List Point2D × ConvexHull2D :=
  st.graham_scan

/-- Method `ConvexHull2D.get_hull_area`: shoelace formula over the cached
`self.hull`; `0.0` when the cached hull has fewer than 3 points. The
source loop pairs `hull[i]` with `hull[(i+1) % n]`, which is exactly
`zip hull (hull.rotate 1)`. -/
def ConvexHull2D.get_hull_area (st : ConvexHull2D) : ℚ :=
  if st.hull.length < 3 then 0
  else |((st.hull.zip (st.hull.rotate 1)).foldl
      (fun acc pq => acc + pq.1.x * pq.2.y - pq.2.x * pq.1.y) 0)| / 2

/-- Method `ConvexHull2D.get_hull_perimeter`: sum of Euclidean distances of
cyclically consecutive cached hull vertices; `0.0` when the cached hull
has fewer than 2 points. -/
noncomputable def ConvexHull2D.get_hull_perimeter (st : ConvexHull2D) : ℝ :=
  if st.hull.length < 2 then 0
  else ((st.hull.zip (st.hull.rotate 1)).map (fun pq => distance_to pq.1 pq.2)).sum

/-- Function `quick_hull` from `src/convex_hull/convex_hull_2d.py`: its body is
`# TODO: Implement QuickHull` followed by `pass`, so the Python function
returns `None` on every input. -/
def quick_hull (points : List Point2D) : Option (List Point2D) :=
  none

/-- Function `compute_convex_hull(points, algorithm)`: dispatches on the
algorithm name; `"graham"` constructs an engine (which may raise) and
returns its computed hull; `"quick"` returns `quick_hull(points)`
(i.e. `None`); anything else raises `ValueError("Unknown algorithm: ...")`. -/
def compute_convex_hull (points : List Point2D) (algorithm : String) :
    Except HullError (Option (List Point2D)) :=
  if algorithm = "graham" then
    match ConvexHull2D.init points with
    | Except.error e => Except.error e
    | Except.ok st => Except.ok (some st.compute_hull.1)
  else if algorithm = "quick" then Except.ok (quick_hull points)
  else Except.error HullError.unknownAlgorithm

/-- All consecutive (non-cyclic) triples of a list pass the `ccw` test. -/
def allCCWTriples : List Point2D → Bool
  | a :: b :: c :: t => ccw a b c && allCCWTriples (b :: c :: t)
  | _ => true

/-- Every cyclically consecutive vertex triple of `h` — including the
two wraparound triples through the first vertex — is a strict
counter-clockwise turn: the consecutive triples of `h ++ h.take 2` are
exactly the cyclic triples of `h` when `3 ≤ h.length`. -/
def convexCyclic (h : List Point2D) : Prop :=
  allCCWTriples (h ++ h.take 2) = true

/-- Predicate: `p` is strictly after `s` in the `(y, x)` order, i.e. `p` lies in
the closed upper half plane at `s` but differs from `s`. Every point of
`other_points` is related to the pivot this way, which is what makes the
cross-product sign agree with the `atan2` polar-angle order. -/
def halfPlane (s p : Point2D) : Prop :=
  s.y < p.y ∨ (s.y = p.y ∧ s.x < p.x)

/-- The strict polar-angle order at `s` of the exact embedding:
`p` has strictly smaller polar angle at `s` than `q`. -/
def angLt (s p q : Point2D) : Prop :=
  0 < cross2 s p q

/-! ### Basic properties of the geometric primitives -/

theorem orientationVal_eq_neg_cross2 (p q r : Point2D) :
    orientationVal p q r = -(cross2 p q r) := by
  unfold orientationVal cross2; ring

theorem cross2_cyclic (p q r : Point2D) : cross2 p q r = cross2 q r p := by
  unfold cross2; ring

theorem cross2_anticomm (s p q : Point2D) : cross2 s q p = -(cross2 s p q) := by
  unfold cross2; ring

/-- The key linear-dependence identity behind transitivity of the
angular order: three plane vectors are linearly dependent. -/
theorem cross2_mul_identity (s p q r : Point2D) :
    cross2 s p r * (q.y - s.y) =
      cross2 s p q * (r.y - s.y) + cross2 s q r * (p.y - s.y) := by
  unfold cross2; ring

/-- Characterisation: `ccw a b c` holds exactly when the cross product of `b - a` and
`c - a` is strictly positive (a strict left turn). -/
theorem ccw_iff_pos (a b c : Point2D) : ccw a b c = true ↔ 0 < cross2 a b c := by
  have hval : orientationVal a b c = -(cross2 a b c) :=
    orientationVal_eq_neg_cross2 a b c
  unfold ccw orientation
  rw [decide_eq_true_eq, hval]
  split_ifs with h1 h2
  · constructor
    · intro h; exact absurd h (by decide)
    · intro h; linarith
  · constructor
    · intro h; exact absurd h (by decide)
    · intro h; linarith
  · constructor
    · intro _; push_neg at h2; rcases lt_or_eq_of_le h2 with h | h
      · linarith
      · exact absurd h.symm (by simpa using h1)
    · intro _; rfl

theorem halfPlane_y (s p : Point2D) (h : halfPlane s p) : s.y ≤ p.y := by
  rcases h with h | ⟨h, _⟩
  · exact le_of_lt h
  · exact le_of_eq h

theorem halfPlane_x (s p : Point2D) (h : halfPlane s p) (hy : p.y = s.y) :
    s.x < p.x := by
  rcases h with h | ⟨_, h⟩
  · exact absurd hy (by linarith)
  · exact h

theorem cross2_horiz_right (s p q : Point2D) (hqy : q.y = s.y) :
    cross2 s p q = (s.y - p.y) * (q.x - s.x) := by
  unfold cross2; rw [hqy]; ring

theorem cross2_horiz_left (s p q : Point2D) (hpy : p.y = s.y) :
    cross2 s p q = (p.x - s.x) * (q.y - s.y) := by
  unfold cross2; rw [hpy]; ring

/-- If `q` lies horizontally right of `s` then no half-plane point is
angularly before it. -/
theorem cross2_nonpos_horiz (s p q : Point2D) (hp : halfPlane s p)
    (hqy : q.y = s.y) (hq : halfPlane s q) : cross2 s p q ≤ 0 := by
  rw [cross2_horiz_right s p q hqy]
  have h1 : s.y ≤ p.y := halfPlane_y s p hp
  have h2 : s.x < q.x := halfPlane_x s q hq hqy
  nlinarith

/-- Transitivity of the strict angular order on the upper half plane. -/
theorem angLt_trans (s p q r : Point2D) (hp : halfPlane s p) (hq : halfPlane s q)
    (hr : halfPlane s r) (h1 : angLt s p q) (h2 : angLt s q r) : angLt s p r := by
  unfold angLt at *
  have hqy : s.y < q.y := by
    rcases hq with h | ⟨h, hx⟩
    · exact h
    · exact absurd h1
        (by simpa using cross2_nonpos_horiz s p q hp h.symm (Or.inr ⟨h, hx⟩))
  have hry : s.y < r.y := by
    rcases hr with h | ⟨h, hx⟩
    · exact h
    · exact absurd h2
        (by simpa using cross2_nonpos_horiz s q r hq h.symm (Or.inr ⟨h, hx⟩))
  have hpy : s.y ≤ p.y := halfPlane_y s p hp
  have hid := cross2_mul_identity s p q r
  nlinarith [mul_pos h1 (by linarith : (0:ℚ) < r.y - s.y),
    mul_nonneg (le_of_lt h2) (by linarith : (0:ℚ) ≤ p.y - s.y)]

/-- An angular strict step followed by an equal-angle step stays a
strict step. -/
theorem angLt_of_angLt_of_zero (s p q r : Point2D) (hp : halfPlane s p)
    (hq : halfPlane s q) (hr : halfPlane s r) (h1 : angLt s p q)
    (h2 : cross2 s q r = 0) : angLt s p r := by
  unfold angLt at *
  have hqy : s.y < q.y := by
    rcases hq with h | ⟨h, hx⟩
    · exact h
    · exact absurd h1
        (by simpa using cross2_nonpos_horiz s p q hp h.symm (Or.inr ⟨h, hx⟩))
  have hry : s.y < r.y := by
    rcases hr with h | ⟨h, hx⟩
    · exact h
    · exfalso
      rw [cross2_horiz_right s q r h.symm] at h2
      rcases mul_eq_zero.mp h2 with h4 | h4
      · exact absurd h4 (by intro h5; linarith)
      · linarith
  have hpy : s.y ≤ p.y := halfPlane_y s p hp
  have hid := cross2_mul_identity s p q r
  rw [h2, zero_mul, add_zero] at hid
  nlinarith [mul_pos h1 (by linarith : (0:ℚ) < r.y - s.y)]

/-- An equal-angle step followed by an angular strict step is a strict
step. -/
theorem angLt_of_zero_of_angLt (s p q r : Point2D) (hp : halfPlane s p)
    (hq : halfPlane s q) (hr : halfPlane s r) (h1 : cross2 s p q = 0)
    (h2 : angLt s q r) : angLt s p r := by
  unfold angLt at *
  rcases hp with hpy | ⟨hpy, hpx⟩
  · -- p strictly above s
    have hqy : s.y < q.y := by
      rcases hq with h | ⟨h, hx⟩
      · exact h
      · exfalso
        rw [cross2_horiz_right s p q h.symm] at h1
        rcases mul_eq_zero.mp h1 with h4 | h4
        · linarith
        · linarith
    have hry : s.y ≤ r.y := halfPlane_y s r hr
    have hid := cross2_mul_identity s p q r
    rw [h1, zero_mul, zero_add] at hid
    nlinarith [mul_pos h2 (by linarith : (0:ℚ) < p.y - s.y)]
  · -- p horizontal: then q is horizontal too, and r is strictly above
    have hqy : q.y = s.y := by
      rw [cross2_horiz_left s p q hpy.symm] at h1
      rcases mul_eq_zero.mp h1 with h | h
      · exact absurd h (by intro h5; linarith)
      · linarith
    have hry : s.y < r.y := by
      rcases hr with h | ⟨h, hx⟩
      · exact h
      · exact absurd h2
          (by simpa using cross2_nonpos_horiz s q r hq h.symm (Or.inr ⟨h, hx⟩))
    rw [cross2_horiz_left s p r hpy.symm]
    nlinarith

/-- Equal angles compose to equal angles. -/
theorem cross2_zero_trans (s p q r : Point2D) (hp : halfPlane s p)
    (hq : halfPlane s q) (hr : halfPlane s r) (h1 : cross2 s p q = 0)
    (h2 : cross2 s q r = 0) : cross2 s p r = 0 := by
  rcases hp with hpy | ⟨hpy, hpx⟩
  · -- p strictly above s
    have hqy : s.y < q.y := by
      rcases hq with h | ⟨h, hx⟩
      · exact h
      · exfalso
        rw [cross2_horiz_right s p q h.symm] at h1
        rcases mul_eq_zero.mp h1 with h4 | h4
        · linarith
        · linarith
    have hid := cross2_mul_identity s p q r
    rw [h1, h2] at hid
    have h4 : cross2 s p r * (q.y - s.y) = 0 := by linarith
    rcases mul_eq_zero.mp h4 with h | h
    · exact h
    · exact absurd h (by intro h5; linarith)
  · -- p horizontal: then q and r are horizontal too
    have hqy : q.y = s.y := by
      rw [cross2_horiz_left s p q hpy.symm] at h1
      rcases mul_eq_zero.mp h1 with h | h
      · exact absurd h (by intro h5; linarith)
      · linarith
    have hqx : s.x < q.x := halfPlane_x s q hq hqy
    have hry : r.y = s.y := by
      rw [cross2_horiz_left s q r hqy] at h2
      rcases mul_eq_zero.mp h2 with h | h
      · exact absurd h (by intro h5; linarith)
      · linarith
    rw [cross2_horiz_left s p r hpy.symm, hry]
    ring

theorem point2D_ext (p q : Point2D) (hx : p.x = q.x) (hy : p.y = q.y) : p = q := by
  cases p; cases q; simp_all

theorem distSq_nonneg (p q : Point2D) : 0 ≤ distSq p q := by
  unfold distSq
  nlinarith [mul_self_nonneg (p.x - q.x), mul_self_nonneg (p.y - q.y)]

/-- Bridging lemma for the embedding: ordering genuine Euclidean
distances (as the source's sort key and collapse step do) is the same as
ordering the squared distances the embedding compares, because `sqrt` is
monotone. -/
theorem distance_to_le_iff (a b c d : Point2D) :
    distance_to a b ≤ distance_to c d ↔ distSq a b ≤ distSq c d := by
  unfold distance_to
  rw [Real.sqrt_le_sqrt_iff (by exact_mod_cast distSq_nonneg c d)]
  exact_mod_cast Iff.rfl

/-- Strict version of `distance_to_le_iff`. -/
theorem distance_to_lt_iff (a b c d : Point2D) :
    distance_to a b < distance_to c d ↔ distSq a b < distSq c d := by
  rw [← not_le, ← not_le, not_iff_not]
  exact distance_to_le_iff c d a b

/-! ### The sort relation is a linear preorder on the upper half plane -/

theorem sortRel_total (s p q : Point2D) : sortRel s p q ∨ sortRel s q p := by
  unfold sortRel
  rcases lt_trichotomy (cross2 s p q) 0 with h | h | h
  · right; left; rw [cross2_anticomm]; linarith
  · rcases le_total (distSq s p) (distSq s q) with hd | hd
    · left; right; exact ⟨h, hd⟩
    · right; right; exact ⟨by rw [cross2_anticomm, h]; ring, hd⟩
  · left; left; exact h

theorem sortRel_trans_hp (s p q r : Point2D) (hp : halfPlane s p)
    (hq : halfPlane s q) (hr : halfPlane s r) (h1 : sortRel s p q)
    (h2 : sortRel s q r) : sortRel s p r := by
  rcases h1 with h1 | ⟨h1, d1⟩
  · rcases h2 with h2 | ⟨h2, d2⟩
    · exact Or.inl (angLt_trans s p q r hp hq hr h1 h2)
    · exact Or.inl (angLt_of_angLt_of_zero s p q r hp hq hr h1 h2)
  · rcases h2 with h2 | ⟨h2, d2⟩
    · exact Or.inl (angLt_of_zero_of_angLt s p q r hp hq hr h1 h2)
    · exact Or.inr ⟨cross2_zero_trans s p q r hp hq hr h1 h2, le_trans d1 d2⟩

theorem sortRel_antisymm_hp (s p q : Point2D) (hp : halfPlane s p)
    (hq : halfPlane s q) (h1 : sortRel s p q) (h2 : sortRel s q p) : p = q := by
  have hz : cross2 s p q = 0 := by
    rcases h1 with h1 | ⟨h1, _⟩
    · rcases h2 with h2 | ⟨h2, _⟩
      · rw [cross2_anticomm] at h2; linarith
      · rw [cross2_anticomm] at h2; linarith
    · exact h1
  have hd1 : distSq s p ≤ distSq s q := by
    rcases h1 with h1 | ⟨_, hd⟩
    · rw [hz] at h1; exact absurd h1 (lt_irrefl 0)
    · exact hd
  have hd2 : distSq s q ≤ distSq s p := by
    rcases h2 with h2 | ⟨_, hd⟩
    · rw [cross2_anticomm, hz] at h2; norm_num at h2
    · exact hd
  have hd : distSq s p = distSq s q := le_antisymm hd1 hd2
  unfold distSq at hd
  rcases hp with hpy | ⟨hpy, hpx⟩
  · -- p strictly above s; then q is strictly above as well
    have hqy : s.y < q.y := by
      rcases hq with h | ⟨h, hx⟩
      · exact h
      · exfalso
        rw [cross2_horiz_right s p q h.symm] at hz
        rcases mul_eq_zero.mp hz with h4 | h4
        · linarith
        · linarith
    have e1 : (p.x - s.x) * (q.y - s.y) = (p.y - s.y) * (q.x - s.x) := by
      unfold cross2 at hz; linarith
    have h5 : (p.y - s.y) * (p.y - s.y) * ((q.x - s.x) * (q.x - s.x) + (q.y - s.y) * (q.y - s.y)) =
        (q.y - s.y) * (q.y - s.y) * ((p.x - s.x) * (p.x - s.x) + (p.y - s.y) * (p.y - s.y)) := by
      linear_combination (-((p.y - s.y) * (q.x - s.x) + (p.x - s.x) * (q.y - s.y))) * e1
    have hDq : 0 < (q.x - s.x) * (q.x - s.x) + (q.y - s.y) * (q.y - s.y) := by
      nlinarith [mul_self_nonneg (q.x - s.x)]
    have h6 : (p.y - s.y) * (p.y - s.y) = (q.y - s.y) * (q.y - s.y) := by
      have h7 : ((p.y - s.y) * (p.y - s.y) - (q.y - s.y) * (q.y - s.y)) *
          ((q.x - s.x) * (q.x - s.x) + (q.y - s.y) * (q.y - s.y)) = 0 := by
        linear_combination h5 + (q.y - s.y) * (q.y - s.y) * hd
      rcases mul_eq_zero.mp h7 with h8 | h8
      · linarith
      · linarith
    have hyy : p.y = q.y := by
      have hle : p.y ≤ q.y := by nlinarith
      have hge : q.y ≤ p.y := by nlinarith
      linarith
    have hxx : p.x = q.x := by
      have h9 : (p.x - s.x) * (q.y - s.y) = (q.x - s.x) * (q.y - s.y) := by
        rw [e1, hyy]; ring
      have h10 : (p.x - q.x) * (q.y - s.y) = 0 := by linarith [h9]
      rcases mul_eq_zero.mp h10 with h11 | h11
      · linarith
      · linarith
    exact point2D_ext p q hxx hyy
  · -- p horizontally right of s; then q is too and distances force p = q
    have hqy : q.y = s.y := by
      rw [cross2_horiz_left s p q hpy.symm] at hz
      rcases mul_eq_zero.mp hz with h4 | h4
      · exact absurd h4 (by intro h5; linarith)
      · linarith
    have hqx : s.x < q.x := halfPlane_x s q hq hqy
    have hxx : p.x = q.x := by
      have hle : p.x ≤ q.x := by nlinarith [hd]
      have hge : q.x ≤ p.x := by nlinarith [hd]
      linarith
    exact point2D_ext p q hxx (by rw [hqy, ← hpy])

/-! ### The Python min over the (y, x) key -/

theorem yxLt_trans (a b c : Point2D) (h1 : yxLt a b) (h2 : yxLt b c) : yxLt a c := by
  unfold yxLt at *
  rcases h1 with h1 | ⟨h1, h1x⟩
  · rcases h2 with h2 | ⟨h2, h2x⟩
    · exact Or.inl (lt_trans h1 h2)
    · exact Or.inl (by linarith)
  · rcases h2 with h2 | ⟨h2, h2x⟩
    · exact Or.inl (by linarith)
    · exact Or.inr ⟨by linarith, by linarith⟩

theorem yxLt_irrefl (p : Point2D) : ¬ yxLt p p := by
  unfold yxLt
  rintro (h | ⟨_, h⟩) <;> exact lt_irrefl _ h

/-- Negated strictness: `¬ yxLt x a` means `a` is (y,x)-at-most `x`;
composing with a strict step keeps strictness. -/
theorem yxLt_of_not_of (a x r : Point2D) (h1 : ¬ yxLt x a) (h2 : yxLt x r) :
    yxLt a r := by
  unfold yxLt at *
  push_neg at h1
  obtain ⟨h1y, h1x⟩ := h1
  rcases h2 with h2 | ⟨h2, h2x⟩
  · exact Or.inl (by linarith)
  · rcases lt_or_eq_of_le h1y with h3 | h3
    · exact Or.inl (by linarith)
    · exact Or.inr ⟨by linarith, by have := h1x h3.symm; linarith⟩

theorem pyMinFold_spec (l : List Point2D) : ∀ (a : Point2D),
    (l.foldl (fun m q => if yxLt q m then q else m) a = a ∨
      l.foldl (fun m q => if yxLt q m then q else m) a ∈ l) ∧
    (∀ q, (q = a ∨ q ∈ l) →
      ¬ yxLt q (l.foldl (fun m q => if yxLt q m then q else m) a)) := by
  induction l with
  | nil =>
    intro a
    refine ⟨Or.inl rfl, ?_⟩
    rintro q (rfl | hq)
    · exact yxLt_irrefl q
    · simp at hq
  | cons x l ih =>
    intro a
    simp only [List.foldl_cons]
    by_cases hxa : yxLt x a
    · rw [if_pos hxa]
      obtain ⟨ihm, ihmin⟩ := ih x
      refine ⟨?_, ?_⟩
      · rcases ihm with h | h
        · rw [h]; exact Or.inr (List.mem_cons_self x l)
        · exact Or.inr (List.mem_cons_of_mem x h)
      · rintro q hq
        rcases hq with rfl | hq
        · intro hc
          exact ihmin x (Or.inl rfl) (yxLt_trans x q _ hxa hc)
        · rcases List.mem_cons.mp hq with rfl | hq
          · exact ihmin q (Or.inl rfl)
          · exact ihmin q (Or.inr hq)
    · rw [if_neg hxa]
      obtain ⟨ihm, ihmin⟩ := ih a
      refine ⟨?_, ?_⟩
      · rcases ihm with h | h
        · exact Or.inl h
        · exact Or.inr (List.mem_cons_of_mem x h)
      · rintro q hq
        rcases hq with rfl | hq
        · exact ihmin q (Or.inl rfl)
        · rcases List.mem_cons.mp hq with rfl | hq
          · intro hc
            exact ihmin a (Or.inl rfl) (yxLt_of_not_of a q _ hxa hc)
          · exact ihmin q (Or.inr hq)

theorem pyMinYX_mem (l : List Point2D) (h : l ≠ []) : pyMinYX l ∈ l := by
  cases l with
  | nil => exact absurd rfl h
  | cons p l =>
    simp only [pyMinYX]
    rcases (pyMinFold_spec l p).1 with h1 | h1
    · rw [h1]; exact List.mem_cons_self p l
    · exact List.mem_cons_of_mem p h1

theorem pyMinYX_not_lt (l : List Point2D) (p : Point2D) (hp : p ∈ l) :
    ¬ yxLt p (pyMinYX l) := by
  cases l with
  | nil => simp at hp
  | cons a l =>
    simp only [pyMinYX]
    rcases List.mem_cons.mp hp with rfl | hp
    · exact (pyMinFold_spec l p).2 p (Or.inl rfl)
    · exact (pyMinFold_spec l a).2 p (Or.inr hp)

/-- Any input point other than the pivot lies strictly after it in the
(y, x) order, i.e. in the open upper half plane or horizontally right. -/
theorem halfPlane_of_mem (pts : List Point2D) (p : Point2D) (hp : p ∈ pts)
    (hne : p ≠ pyMinYX pts) : halfPlane (pyMinYX pts) p := by
  have h := pyMinYX_not_lt pts p hp
  unfold yxLt at h
  push_neg at h
  obtain ⟨h1, h2⟩ := h
  unfold halfPlane
  rcases lt_or_eq_of_le h1 with h3 | h3
  · exact Or.inl h3
  · have h4 := h2 h3.symm
    rcases lt_or_eq_of_le h4 with h5 | h5
    · exact Or.inr ⟨h3, h5⟩
    · exact absurd (point2D_ext p (pyMinYX pts) h5.symm h3.symm) hne

/-! ### Sorting the candidate points -/

theorem sorted_orderedInsert_hp (s a : Point2D) (l : List Point2D)
    (ha : halfPlane s a) (hl : ∀ x ∈ l, halfPlane s x)
    (hs : List.Sorted (sortRel s) l) :
    List.Sorted (sortRel s) (List.orderedInsert (sortRel s) a l) := by
  induction l with
  | nil => exact List.sorted_singleton a
  | cons b l ih =>
    by_cases h : sortRel s a b
    · rw [List.orderedInsert, if_pos h]
      rw [List.sorted_cons]
      refine ⟨?_, hs⟩
      intro c hc
      rcases List.mem_cons.mp hc with rfl | hc
      · exact h
      · exact sortRel_trans_hp s a b c ha (hl b (List.mem_cons_self b l))
          (hl c (List.mem_cons_of_mem b hc)) h
          (List.rel_of_sorted_cons hs c hc)
    · rw [List.orderedInsert, if_neg h]
      rw [List.sorted_cons]
      constructor
      · intro c hc
        rcases (List.mem_orderedInsert (sortRel s)).mp hc with rfl | hc
        · rcases sortRel_total s c b with h2 | h2
          · exact absurd h2 h
          · exact h2
        · exact List.rel_of_sorted_cons hs c hc
      · exact ih (fun x hx => hl x (List.mem_cons_of_mem b hx)) hs.of_cons

theorem sorted_insertionSort_hp (s : Point2D) (l : List Point2D)
    (hl : ∀ x ∈ l, halfPlane s x) :
    List.Sorted (sortRel s) (List.insertionSort (sortRel s) l) := by
  induction l with
  | nil => exact List.sorted_nil
  | cons a l ih =>
    rw [List.insertionSort]
    exact sorted_orderedInsert_hp s a _ (hl a (List.mem_cons_self a l))
      (fun x hx => hl x
        (List.mem_cons_of_mem a ((List.mem_insertionSort (sortRel s)).mp hx)))
      (ih (fun x hx => hl x (List.mem_cons_of_mem a hx)))

theorem cons_append_eq_of_all_eq (a : Point2D) (u v : List Point2D)
    (h : ∀ x ∈ u, x = a) : a :: (u ++ v) = u ++ a :: v := by
  induction u with
  | nil => rfl
  | cons b u ih =>
    have hb : b = a := h b (List.mem_cons_self b u)
    subst hb
    simp only [List.cons_append]
    rw [← ih (fun x hx => h x (List.mem_cons_of_mem b hx))]

/-- Two sorted permutations of the same points of the upper half plane
are equal: the sort key separates distinct points there. -/
theorem sorted_unique_hp (s : Point2D) : ∀ (l₁ l₂ : List Point2D), l₁.Perm l₂ →
    List.Sorted (sortRel s) l₁ → List.Sorted (sortRel s) l₂ →
    (∀ x ∈ l₁, halfPlane s x) → l₁ = l₂ := by
  intro l₁
  induction l₁ with
  | nil => intro l₂ hp _ _ _; exact hp.nil_eq
  | cons a t₁ ih =>
    intro l₂ hp hs₁ hs₂ hhp
    have ha₂ : a ∈ l₂ := hp.subset (List.mem_cons_self a t₁)
    obtain ⟨u₂, v₂, rfl⟩ := List.append_of_mem ha₂
    have hp2 : t₁.Perm (u₂ ++ v₂) :=
      (List.perm_cons a).mp (hp.trans List.perm_middle)
    have ht₁ : t₁ = u₂ ++ v₂ :=
      ih _ hp2 hs₁.of_cons (hs₂.sublist (by simp))
        (fun x hx => hhp x (List.mem_cons_of_mem a hx))
    subst ht₁
    have hall : ∀ x ∈ u₂, x = a := by
      intro x hx
      have h1 : sortRel s a x :=
        List.rel_of_sorted_cons hs₁ x (List.mem_append_left v₂ hx)
      have h2 : sortRel s x a :=
        (List.pairwise_append.mp hs₂).2.2 x hx a (List.mem_cons_self a v₂)
      exact sortRel_antisymm_hp s x a
        (hhp x (List.mem_cons_of_mem a (List.mem_append_left v₂ hx)))
        (hhp a (List.mem_cons_self a _)) h2 h1
    exact cons_append_eq_of_all_eq a u₂ v₂ hall

/-! ### The stages of graham_scan -/

theorem mem_hullOthers (pts : List Point2D) (p : Point2D) :
    p ∈ hullOthers pts ↔ p ∈ pts ∧ p ≠ hullStart pts := by
  unfold hullOthers
  rw [List.mem_filter]
  simp

theorem halfPlane_hullOthers (pts : List Point2D) (p : Point2D)
    (hp : p ∈ hullOthers pts) : halfPlane (hullStart pts) p := by
  obtain ⟨h1, h2⟩ := (mem_hullOthers pts p).mp hp
  exact halfPlane_of_mem pts p h1 h2

theorem hullSorted_perm (pts : List Point2D) :
    (hullSorted pts).Perm (hullOthers pts) :=
  List.perm_insertionSort _ _

theorem mem_hullSorted (pts : List Point2D) (p : Point2D) :
    p ∈ hullSorted pts ↔ p ∈ hullOthers pts :=
  (hullSorted_perm pts).mem_iff

theorem hullSorted_sorted (pts : List Point2D) :
    List.Sorted (sortRel (hullStart pts)) (hullSorted pts) :=
  sorted_insertionSort_hp (hullStart pts) (hullOthers pts)
    (fun x hx => halfPlane_hullOthers pts x hx)

/-! ### The same-angle collapse -/

theorem mem_collapseStep (s : Point2D) (acc : List Point2D) (p x : Point2D)
    (h : x ∈ collapseStep s acc p) : x = p ∨ x ∈ acc := by
  cases acc with
  | nil => simpa [collapseStep] using h
  | cons last rest =>
    simp only [collapseStep] at h
    split_ifs at h with h1 h2
    · rcases List.mem_cons.mp h with rfl | h
      · exact Or.inl rfl
      · exact Or.inr (List.mem_cons_of_mem last h)
    · exact Or.inr h
    · rcases List.mem_cons.mp h with rfl | h
      · exact Or.inl rfl
      · exact Or.inr h

theorem collapseStep_ne_nil (s : Point2D) (acc : List Point2D) (p : Point2D) :
    collapseStep s acc p ≠ [] := by
  cases acc with
  | nil => simp [collapseStep]
  | cons last rest => simp only [collapseStep]; split_ifs <;> simp

theorem collapse_fold_spec (s : Point2D) : ∀ (l acc : List Point2D),
    (∀ x ∈ l, halfPlane s x) → (∀ x ∈ acc, halfPlane s x) →
    (∀ a ∈ acc, ∀ p ∈ l, sortRel s a p) →
    List.Pairwise (sortRel s) l →
    List.Pairwise (fun a b => angLt s b a) acc →
    (∀ x ∈ l.foldl (collapseStep s) acc, x ∈ acc ∨ x ∈ l) ∧
    List.Pairwise (fun a b => angLt s b a) (l.foldl (collapseStep s) acc) ∧
    (l.foldl (collapseStep s) acc = [] → acc = [] ∧ l = []) := by
  intro l
  induction l with
  | nil =>
    intro acc _ hacc _ _ hpw
    exact ⟨fun x hx => Or.inl hx, hpw, fun h => ⟨h, rfl⟩⟩
  | cons p l ih =>
    intro acc hl hacc hrel hpl hpw
    simp only [List.foldl_cons]
    have hp : halfPlane s p := hl p (List.mem_cons_self p l)
    have hhp' : ∀ x ∈ collapseStep s acc p, halfPlane s x := by
      intro x hx
      rcases mem_collapseStep s acc p x hx with rfl | hx
      · exact hp
      · exact hacc x hx
    have hrel' : ∀ a ∈ collapseStep s acc p, ∀ q ∈ l, sortRel s a q := by
      intro a ha q hq
      rcases mem_collapseStep s acc p a ha with rfl | ha
      · exact List.rel_of_pairwise_cons hpl hq
      · exact hrel a ha q (List.mem_cons_of_mem p hq)
    have hpw' : List.Pairwise (fun a b => angLt s b a) (collapseStep s acc p) := by
      cases acc with
      | nil => exact List.pairwise_singleton _ p
      | cons last rest =>
        have hlast : halfPlane s last := hacc last (List.mem_cons_self last rest)
        have hrest : ∀ x ∈ rest, angLt s x last :=
          fun x hx => List.rel_of_pairwise_cons hpw hx
        have hpwrest : List.Pairwise (fun a b => angLt s b a) rest :=
          List.Pairwise.of_cons hpw
        simp only [collapseStep]
        split_ifs with h1 h2
        · -- same angle, p farther: replace the head
          rw [List.pairwise_cons]
          refine ⟨?_, hpwrest⟩
          intro x hx
          exact angLt_of_angLt_of_zero s x last p
            (hacc x (List.mem_cons_of_mem last hx)) hlast hp (hrest x hx) h1
        · -- same angle, p not farther: keep the accumulator
          exact hpw
        · -- new angle: push p
          have hlp : angLt s last p := by
            rcases hrel last (List.mem_cons_self last rest) p
                (List.mem_cons_self p l) with h3 | ⟨h3, _⟩
            · exact h3
            · exact absurd h3 h1
          rw [List.pairwise_cons]
          refine ⟨?_, hpw⟩
          intro x hx
          rcases List.mem_cons.mp hx with rfl | hx
          · exact hlp
          · exact angLt_trans s x last p
              (hacc x (List.mem_cons_of_mem last hx)) hlast hp (hrest x hx) hlp
    obtain ⟨ihmem, ihpw, ihnil⟩ := ih (collapseStep s acc p)
      (fun x hx => hl x (List.mem_cons_of_mem p hx)) hhp' hrel'
      (List.Pairwise.of_cons hpl) hpw'
    refine ⟨?_, ihpw, ?_⟩
    · intro x hx
      rcases ihmem x hx with hx | hx
      · rcases mem_collapseStep s acc p x hx with rfl | hx
        · exact Or.inr (List.mem_cons_self x l)
        · exact Or.inl hx
      · exact Or.inr (List.mem_cons_of_mem p hx)
    · intro h
      exact absurd (ihnil h).1 (collapseStep_ne_nil s acc p)

theorem removeSameAnglePoints_spec (s : Point2D) (l : List Point2D)
    (hl : ∀ x ∈ l, halfPlane s x) (hp : List.Pairwise (sortRel s) l) :
    (∀ x ∈ removeSameAnglePoints s l, x ∈ l) ∧
    List.Pairwise (angLt s) (removeSameAnglePoints s l) ∧
    (removeSameAnglePoints s l = [] → l = []) := by
  obtain ⟨hmem, hpw, hnil⟩ := collapse_fold_spec s l [] hl (by simp) (by simp) hp
    (List.Pairwise.nil)
  unfold removeSameAnglePoints
  refine ⟨?_, ?_, ?_⟩
  · intro x hx
    rcases hmem x (List.mem_reverse.mp hx) with hx | hx
    · simp at hx
    · exact hx
  · rw [List.pairwise_reverse]
    exact hpw
  · intro h
    rw [List.reverse_eq_nil_iff] at h
    exact (hnil h).2

theorem hullFiltered_pairwise (pts : List Point2D) :
    List.Pairwise (angLt (hullStart pts)) (hullFiltered pts) :=
  (removeSameAnglePoints_spec (hullStart pts) (hullSorted pts)
    (fun x hx => halfPlane_hullOthers pts x ((mem_hullSorted pts x).mp hx))
    (hullSorted_sorted pts)).2.1

theorem mem_hullFiltered (pts : List Point2D) (p : Point2D)
    (hp : p ∈ hullFiltered pts) : p ∈ hullOthers pts :=
  (mem_hullSorted pts p).mp
    ((removeSameAnglePoints_spec (hullStart pts) (hullSorted pts)
      (fun x hx => halfPlane_hullOthers pts x ((mem_hullSorted pts x).mp hx))
      (hullSorted_sorted pts)).1 p hp)

theorem hullFiltered_nil (pts : List Point2D) (h : hullFiltered pts = []) :
    hullOthers pts = [] := by
  have h2 := (removeSameAnglePoints_spec (hullStart pts) (hullSorted pts)
    (fun x hx => halfPlane_hullOthers pts x ((mem_hullSorted pts x).mp hx))
    (hullSorted_sorted pts)).2.2 h
  have h3 := hullSorted_perm pts
  rw [h2] at h3
  exact h3.nil_eq.symm

/-! ### The scan stack -/

theorem allCCWTriples_iff : ∀ (l : List Point2D),
    allCCWTriples l = true ↔
      (∀ (u v : List Point2D) (a b c : Point2D),
        l = u ++ a :: b :: c :: v → ccw a b c = true) := by
  intro l
  induction l with
  | nil =>
    constructor
    · intro _ u v a b c heq
      have := congrArg List.length heq
      simp [List.length_append] at this
      omega
    · intro _; rfl
  | cons x l ih =>
    cases l with
    | nil =>
      constructor
      · intro _ u v a b c heq
        have := congrArg List.length heq
        simp [List.length_append] at this
        omega
      · intro _; rfl
    | cons y l2 =>
      cases l2 with
      | nil =>
        constructor
        · intro _ u v a b c heq
          have := congrArg List.length heq
          simp [List.length_append] at this
          omega
        · intro _; rfl
      | cons z t =>
        constructor
        · intro h u v a b c heq
          have h1 := (Bool.and_eq_true _ _).mp h
          cases u with
          | nil =>
            simp only [List.nil_append, List.cons.injEq] at heq
            obtain ⟨rfl, rfl, rfl, _⟩ := heq
            exact h1.1
          | cons w u =>
            simp only [List.cons_append, List.cons.injEq] at heq
            exact (ih.mp h1.2) u v a b c heq.2
        · intro h
          rw [show allCCWTriples (x :: y :: z :: t) =
              (ccw x y z && allCCWTriples (y :: z :: t)) from rfl]
          rw [Bool.and_eq_true]
          constructor
          · exact h [] t x y z rfl
          · rw [ih]
            intro u v a b c heq
            exact h (x :: u) v a b c (by rw [List.cons_append, heq])

/-- Appending the two wraparound points preserves the all-CCW test,
given the two boundary triples. -/
theorem allCCW_append_two : ∀ (l : List Point2D) (x y : Point2D),
    allCCWTriples l = true →
    (∀ (u : List Point2D) (a b : Point2D), l = u ++ [a, b] → ccw a b x = true) →
    (∀ (u : List Point2D) (a : Point2D), l = u ++ [a] → ccw a x y = true) →
    allCCWTriples (l ++ [x, y]) = true := by
  intro l
  induction l with
  | nil => intro x y _ _ _; rfl
  | cons a l ih =>
    intro x y hall h2 h1
    cases l with
    | nil =>
      rw [show ([a] ++ [x, y] : List Point2D) = [a, x, y] from rfl]
      rw [show allCCWTriples [a, x, y] = (ccw a x y && allCCWTriples [x, y]) from rfl]
      rw [Bool.and_eq_true]
      exact ⟨h1 [] a rfl, rfl⟩
    | cons b l2 =>
      cases l2 with
      | nil =>
        rw [show ([a, b] ++ [x, y] : List Point2D) = [a, b, x, y] from rfl]
        rw [show allCCWTriples [a, b, x, y] =
            (ccw a b x && allCCWTriples [b, x, y]) from rfl]
        rw [show allCCWTriples [b, x, y] =
            (ccw b x y && allCCWTriples [x, y]) from rfl]
        simp only [Bool.and_eq_true]
        exact ⟨h2 [] a b rfl, h1 [a] b rfl, rfl⟩
      | cons c t =>
        rw [show ((a :: b :: c :: t) ++ [x, y] : List Point2D)
            = a :: b :: c :: (t ++ [x, y]) from by simp]
        rw [show allCCWTriples (a :: b :: c :: (t ++ [x, y]))
            = (ccw a b c && allCCWTriples (b :: c :: (t ++ [x, y]))) from rfl]
        rw [Bool.and_eq_true]
        have hall' := (Bool.and_eq_true _ _).mp hall
        constructor
        · exact hall'.1
        · rw [show (b :: c :: (t ++ [x, y]) : List Point2D)
              = (b :: c :: t) ++ [x, y] from by simp]
          exact ih x y hall'.2
            (fun u a' b' heq => h2 (a :: u) a' b' (by rw [heq]; rfl))
            (fun u a' heq => h1 (a :: u) a' (by rw [heq]; rfl))

theorem scanStep_spec (s p : Point2D) : ∀ (rs : List Point2D), rs ≠ [] →
    (∀ x ∈ rs, angLt s x p) →
    (∀ (u v : List Point2D) (a b c : Point2D),
      rs ++ [s] = u ++ c :: b :: a :: v → ccw a b c = true) →
    ∃ rs2 u0, rs = u0 ++ rs2 ∧ rs2 ≠ [] ∧
      scanStep p (rs ++ [s]) = (p :: rs2) ++ [s] ∧
      (∀ (u v : List Point2D) (a b c : Point2D),
        (p :: rs2) ++ [s] = u ++ c :: b :: a :: v → ccw a b c = true) := by
  intro rs
  induction rs with
  | nil => intro h _ _; exact absurd rfl h
  | cons x rs' ih =>
    intro _ hang hSC
    cases rs' with
    | nil =>
      have hccw : ccw s x p = true :=
        (ccw_iff_pos s x p).mpr (hang x (List.mem_cons_self x []))
      refine ⟨[x], [], rfl, by simp, ?_, ?_⟩
      · show scanStep p (x :: s :: []) = p :: x :: s :: []
        simp [scanStep, hccw]
      · intro u v a b c heq
        cases u with
        | nil =>
          simp only [List.cons_append, List.nil_append, List.cons.injEq] at heq
          obtain ⟨rfl, rfl, rfl, _⟩ := heq
          exact hccw
        | cons w u' =>
          exfalso
          have := congrArg List.length heq
          simp [List.length_append] at this
          omega
    | cons y rs'' =>
      by_cases hc : ccw y x p = true
      · refine ⟨x :: y :: rs'', [], rfl, by simp, ?_, ?_⟩
        · show scanStep p (x :: y :: (rs'' ++ [s])) = p :: x :: y :: (rs'' ++ [s])
          simp [scanStep, hc]
        · intro u v a b c heq
          cases u with
          | nil =>
            simp only [List.cons_append, List.nil_append, List.cons.injEq] at heq
            obtain ⟨rfl, rfl, rfl, _⟩ := heq
            exact hc
          | cons w u' =>
            simp only [List.cons_append, List.cons.injEq] at heq
            exact hSC u' v a b c (by rw [List.cons_append]; exact heq.2)
      · obtain ⟨rs2, u0, hdecomp, hne2, heq2, hSC2⟩ :=
          ih (by simp) (fun z hz => hang z (List.mem_cons_of_mem x hz))
            (fun u v a b c heq => hSC (x :: u) v a b c
              (by simp only [List.cons_append] at heq ⊢; rw [heq]))
        refine ⟨rs2, x :: u0, by rw [List.cons_append, ← hdecomp], hne2, ?_, hSC2⟩
        show scanStep p (x :: y :: (rs'' ++ [s])) = (p :: rs2) ++ [s]
        rw [show scanStep p (x :: y :: (rs'' ++ [s]))
            = if ccw y x p then p :: x :: y :: (rs'' ++ [s])
              else scanStep p (y :: (rs'' ++ [s])) from rfl]
        rw [if_neg hc]
        rw [show (y :: (rs'' ++ [s]) : List Point2D) = (y :: rs'') ++ [s] from rfl]
        exact heq2

theorem scanFold_spec (s : Point2D) : ∀ (l rs : List Point2D), rs ≠ [] →
    (∀ x ∈ rs, ∀ q ∈ l, angLt s x q) →
    List.Pairwise (angLt s) l →
    List.Pairwise (fun a b => angLt s b a) rs →
    (∀ (u v : List Point2D) (a b c : Point2D),
      rs ++ [s] = u ++ c :: b :: a :: v → ccw a b c = true) →
    ∃ rs2, rs2 ≠ [] ∧
      l.foldl (fun h q => scanStep q h) (rs ++ [s]) = rs2 ++ [s] ∧
      (∀ (u v : List Point2D) (a b c : Point2D),
        rs2 ++ [s] = u ++ c :: b :: a :: v → ccw a b c = true) ∧
      List.Pairwise (fun a b => angLt s b a) rs2 ∧
      (∀ x ∈ rs2, x ∈ rs ∨ x ∈ l) ∧
      (2 ≤ rs.length → 2 ≤ rs2.length) := by
  intro l
  induction l with
  | nil =>
    intro rs hne _ _ hpw hSC
    exact ⟨rs, hne, rfl, hSC, hpw, fun x hx => Or.inl hx, fun h => h⟩
  | cons p l ih =>
    intro rs hne hrel hpl hpw hSC
    simp only [List.foldl_cons]
    obtain ⟨rs1, u0, hdecomp, hne1, heq1, hSC1⟩ := scanStep_spec s p rs hne
      (fun x hx => hrel x hx p (List.mem_cons_self p l)) hSC
    rw [heq1]
    have hmem1 : ∀ x ∈ rs1, x ∈ rs := by
      intro x hx; rw [hdecomp]; exact List.mem_append_right u0 hx
    obtain ⟨rs2, hne2, heq2, hSC2, hpw2, hmem2, hlen2⟩ := ih (p :: rs1) (by simp)
      (fun x hx q hq => by
        rcases List.mem_cons.mp hx with rfl | hx
        · exact List.rel_of_pairwise_cons hpl hq
        · exact hrel x (hmem1 x hx) q (List.mem_cons_of_mem p hq))
      (List.Pairwise.of_cons hpl)
      (by
        rw [List.pairwise_cons]
        refine ⟨fun x hx => hrel x (hmem1 x hx) p (List.mem_cons_self p l), ?_⟩
        have hpw' : List.Pairwise (fun a b => angLt s b a) (u0 ++ rs1) :=
          hdecomp ▸ hpw
        exact (List.pairwise_append.mp hpw').2.1)
      hSC1
    refine ⟨rs2, hne2, heq2, hSC2, hpw2, ?_, ?_⟩
    · intro x hx
      rcases hmem2 x hx with hx | hx
      · rcases List.mem_cons.mp hx with rfl | hx
        · exact Or.inr (List.mem_cons_self x l)
        · exact Or.inl (hmem1 x hx)
      · exact Or.inr (List.mem_cons_of_mem p hx)
    · intro _
      apply hlen2
      have := List.length_pos.mpr hne1
      simp only [List.length_cons]
      omega

/-- The central structure theorem about `graham_scan`: the returned list
is the pivot followed by a list of candidate points in strictly
increasing angular order; when the filtered list kept at least 2 points,
the hull has at least 3 vertices and every three consecutive hull
vertices form a strict counter-clockwise turn. -/
theorem grahamScan_structure (pts : List Point2D) :
    ∃ cs : List Point2D,
      grahamScan pts = hullStart pts :: cs ∧
      List.Pairwise (angLt (hullStart pts)) cs ∧
      (∀ x ∈ cs, x ∈ hullOthers pts) ∧
      ((hullFiltered pts).length < 2 → cs = hullFiltered pts) ∧
      (2 ≤ (hullFiltered pts).length →
        2 ≤ cs.length ∧
        (∀ (u v : List Point2D) (a b c : Point2D),
          grahamScan pts = u ++ a :: b :: c :: v → ccw a b c = true)) := by
  cases hmatch : hullFiltered pts with
  | nil =>
    refine ⟨[], ?_, List.Pairwise.nil, by simp, fun _ => rfl, ?_⟩
    · unfold grahamScan
      rw [hmatch]
    · intro h; rw [List.length_nil] at h; omega
  | cons f0 tail =>
    cases tail with
    | nil =>
      refine ⟨[f0], ?_, List.pairwise_singleton _ f0, ?_, fun _ => rfl, ?_⟩
      · unfold grahamScan
        rw [hmatch]
      · intro x hx
        rcases List.mem_cons.mp hx with rfl | hx
        · exact mem_hullFiltered pts x (hmatch ▸ List.mem_cons_self x [])
        · simp at hx
      · intro h; simp at h
    | cons f1 rest =>
      have hpf : List.Pairwise (angLt (hullStart pts)) (f0 :: f1 :: rest) :=
        hmatch ▸ hullFiltered_pairwise pts
      have hf01 : angLt (hullStart pts) f0 f1 :=
        List.rel_of_pairwise_cons hpf (List.mem_cons_self f1 rest)
      obtain ⟨rs2, hne2, heq2, hSC2, hpw2, hmem2, hlen2⟩ :=
        scanFold_spec (hullStart pts) rest [f1, f0] (by simp)
          (by
            intro x hx q hq
            rcases List.mem_cons.mp hx with rfl | hx
            · exact List.rel_of_pairwise_cons (List.Pairwise.of_cons hpf)
                hq
            · rcases List.mem_cons.mp hx with rfl | hx
              · exact List.rel_of_pairwise_cons hpf
                  (List.mem_cons_of_mem f1 hq)
              · simp at hx)
          (List.Pairwise.of_cons (List.Pairwise.of_cons hpf))
          (by
            rw [List.pairwise_cons]
            exact ⟨by
              intro x hx
              rcases List.mem_cons.mp hx with rfl | hx
              · exact hf01
              · simp at hx, List.pairwise_singleton _ f0⟩)
          (by
            intro u v a b c heq
            cases u with
            | nil =>
              simp only [List.cons_append, List.nil_append,
                List.cons.injEq] at heq
              obtain ⟨rfl, rfl, rfl, _⟩ := heq
              exact (ccw_iff_pos _ f0 f1).mpr hf01
            | cons w u' =>
              exfalso
              have := congrArg List.length heq
              simp [List.length_append] at this
              omega)
      have hG : grahamScan pts = hullStart pts :: rs2.reverse := by
        unfold grahamScan
        rw [hmatch]
        show (List.foldl (fun h p => scanStep p h)
            ([f1, f0] ++ [hullStart pts]) rest).reverse
          = hullStart pts :: rs2.reverse
        rw [heq2]
        simp
      refine ⟨rs2.reverse, hG, ?_, ?_, ?_, ?_⟩
      · rw [List.pairwise_reverse]
        exact hpw2
      · intro x hx
        have hx2 := List.mem_reverse.mp hx
        rcases hmem2 x hx2 with hx3 | hx3
        · rcases List.mem_cons.mp hx3 with rfl | hx3
          · exact mem_hullFiltered pts x
              (hmatch ▸ List.mem_cons_of_mem f0 (List.mem_cons_self x rest))
          · rcases List.mem_cons.mp hx3 with rfl | hx3
            · exact mem_hullFiltered pts x (hmatch ▸ List.mem_cons_self x _)
            · simp at hx3
        · exact mem_hullFiltered pts x
            (hmatch ▸ List.mem_cons_of_mem f0
              (List.mem_cons_of_mem f1 hx3))
      · intro h; simp at h; omega
      · intro _
        constructor
        · have h2 : 2 ≤ rs2.length := hlen2 (by simp)
          rw [List.length_reverse]
          exact h2
        · intro u v a b c heq
          rw [hG] at heq
          have hrev : rs2 ++ [hullStart pts] = v.reverse ++ c :: b :: a :: u.reverse := by
            have h4 : (rs2 ++ [hullStart pts]).reverse = u ++ a :: b :: c :: v := by
              rw [List.reverse_append]
              simpa using heq
            calc rs2 ++ [hullStart pts]
                = ((rs2 ++ [hullStart pts]).reverse).reverse := by
                  rw [List.reverse_reverse]
              _ = (u ++ a :: b :: c :: v).reverse := by rw [h4]
              _ = v.reverse ++ c :: b :: a :: u.reverse := by simp
          exact hSC2 v.reverse u.reverse a b c hrev

/-! ### Closing the polygon: the wraparound triples -/

theorem cross2_self (s a : Point2D) : cross2 s a a = 0 := by
  unfold cross2; ring

/-- The triple (a, b, pivot) turns left when `a` is angularly before
`b`: the cross product is invariant under cyclic rotation. -/
theorem ccw_wrap_last (s a b : Point2D) (h : angLt s a b) : ccw a b s = true := by
  rw [ccw_iff_pos]
  rw [cross2_cyclic a b s, cross2_cyclic b s a]
  exact h

/-- The triple (last, pivot, first) turns left when `c1` is angularly
before `a`. -/
theorem ccw_wrap_bridge (s a c1 : Point2D) (h : angLt s c1 a) :
    ccw a s c1 = true := by
  rw [ccw_iff_pos]
  rw [cross2_cyclic a s c1]
  exact h

theorem pairwise_middle_rel {R : Point2D → Point2D → Prop} :
    ∀ (u v : List Point2D) (a b : Point2D),
      List.Pairwise R (u ++ a :: b :: v) → R a b := by
  intro u
  induction u with
  | nil =>
    intro v a b h
    exact List.rel_of_pairwise_cons h (List.mem_cons_self b v)
  | cons x u ih =>
    intro v a b h
    exact ih v a b (List.Pairwise.of_cons h)

/-- Assembling convexity: a list `pivot :: cs` whose candidates are in
strictly increasing angular order and whose interior triples all turn
left is cyclically convex. -/
theorem convexCyclic_of_parts (s : Point2D) (cs : List Point2D)
    (h2 : 2 ≤ cs.length)
    (hpw : List.Pairwise (angLt s) cs)
    (hSC : ∀ (u v : List Point2D) (a b c : Point2D),
      (s :: cs) = u ++ a :: b :: c :: v → ccw a b c = true) :
    convexCyclic (s :: cs) := by
  obtain ⟨c1, cs2, rfl⟩ : ∃ c1 cs2, cs = c1 :: cs2 := by
    cases cs with
    | nil => simp at h2
    | cons c1 cs2 => exact ⟨c1, cs2, rfl⟩
  unfold convexCyclic
  have htake : (s :: c1 :: cs2).take 2 = [s, c1] := rfl
  rw [htake]
  apply allCCW_append_two
  · exact (allCCWTriples_iff _).mpr hSC
  · intro u a b heq
    cases u with
    | nil =>
      simp only [List.nil_append, List.cons.injEq] at heq
      obtain ⟨rfl, rfl, h4⟩ := heq
      rw [h4] at h2
      simp at h2
    | cons w u2 =>
      simp only [List.cons_append, List.cons.injEq] at heq
      obtain ⟨rfl, heq⟩ := heq
      have hab : angLt s a b := pairwise_middle_rel u2 [] a b (heq ▸ hpw)
      exact ccw_wrap_last s a b hab
  · intro u a heq
    cases u with
    | nil =>
      simp only [List.nil_append, List.cons.injEq] at heq
      obtain ⟨rfl, h4⟩ := heq
      simp at h4
    | cons w u2 =>
      simp only [List.cons_append, List.cons.injEq] at heq
      obtain ⟨rfl, heq⟩ := heq
      cases u2 with
      | nil =>
        simp only [List.nil_append, List.cons.injEq] at heq
        obtain ⟨rfl, rfl⟩ := heq
        simp at h2
      | cons w2 u3 =>
        simp only [List.cons_append, List.cons.injEq] at heq
        obtain ⟨rfl, heq⟩ := heq
        have ha : a ∈ cs2 := by
          rw [heq]
          exact List.mem_append_right u3 (List.mem_cons_self a [])
        have h3 : angLt s c1 a := List.rel_of_pairwise_cons hpw ha
        exact ccw_wrap_bridge s a c1 h3

theorem orientation_eq_zero_iff (p q r : Point2D) :
    orientation p q r = 0 ↔ orientationVal p q r = 0 := by
  unfold orientation
  split_ifs with h1 h2
  · simp [h1]
  · simp [h1]
  · constructor
    · intro h; exact absurd h (by decide)
    · intro h; exact absurd h h1

theorem distSq_pos (p q : Point2D) (h : p ≠ q) : 0 < distSq p q := by
  rcases lt_or_eq_of_le (distSq_nonneg p q) with h1 | h1
  · exact h1
  · exfalso
    apply h
    unfold distSq at h1
    have hx2 : (p.x - q.x) * (p.x - q.x) = 0 := by
      have hb := mul_self_nonneg (p.y - q.y)
      have ha := mul_self_nonneg (p.x - q.x)
      linarith
    have hy2 : (p.y - q.y) * (p.y - q.y) = 0 := by
      have ha := mul_self_nonneg (p.x - q.x)
      linarith
    have hx := mul_self_eq_zero.mp hx2
    have hy := mul_self_eq_zero.mp hy2
    exact point2D_ext p q (by linarith) (by linarith)

/-! ### Claim theorems: convexity, pivot, subset, distinctness -/

/-- C3: for every input of at least 3 points, the hull returned by
`graham_scan` either has fewer than 3 vertices or every cyclically
consecutive vertex triple — the wraparound triples through the first
vertex included — is a strict counter-clockwise turn (so never clockwise
and with no collinear triple at all). -/
theorem grahamScan_convexity (pts : List Point2D) (h3 : 3 ≤ pts.length) :
    (grahamScan pts).length < 3 ∨ convexCyclic (grahamScan pts) := by
  obtain ⟨cs, hG, hpw, hmem, hsmall, hbig⟩ := grahamScan_structure pts
  by_cases hf : 2 ≤ (hullFiltered pts).length
  · right
    obtain ⟨hlen, hSC⟩ := hbig hf
    rw [hG]
    apply convexCyclic_of_parts (hullStart pts) cs hlen hpw
    intro u v a b c heq
    exact hSC u v a b c (hG.trans heq)
  · left
    rw [hG]
    have hcs := hsmall (by omega)
    rw [List.length_cons, hcs]
    omega

theorem grahamScan_convexity_witness :
    3 ≤ ([⟨0,0⟩, ⟨4,0⟩, ⟨4,3⟩, ⟨0,3⟩, ⟨2,1⟩] : List Point2D).length ∧
      ((grahamScan [⟨0,0⟩, ⟨4,0⟩, ⟨4,3⟩, ⟨0,3⟩, ⟨2,1⟩]).length < 3 ∨
        convexCyclic (grahamScan [⟨0,0⟩, ⟨4,0⟩, ⟨4,3⟩, ⟨0,3⟩, ⟨2,1⟩])) :=
  ⟨by decide, grahamScan_convexity _ (by decide)⟩

/-- C4: for every input of at least 3 points, the first vertex of the
hull returned by `graham_scan` is the input point with minimum y
coordinate (ties broken by minimum x), and that point is a vertex of the
hull. -/
theorem grahamScan_starts_at_pivot (pts : List Point2D) (h3 : 3 ≤ pts.length) :
    ∃ m, (grahamScan pts).head? = some m ∧ m ∈ pts ∧ m ∈ grahamScan pts ∧
      ∀ p ∈ pts, m.y < p.y ∨ (m.y = p.y ∧ m.x ≤ p.x) := by
  obtain ⟨cs, hG, _, _, _, _⟩ := grahamScan_structure pts
  have hne : pts ≠ [] := by intro h; rw [h] at h3; simp at h3
  refine ⟨hullStart pts, by rw [hG]; rfl, pyMinYX_mem pts hne,
    by rw [hG]; exact List.mem_cons_self _ _, ?_⟩
  intro p hp
  have h := pyMinYX_not_lt pts p hp
  unfold yxLt at h
  push_neg at h
  obtain ⟨h1, h2⟩ := h
  rcases lt_or_eq_of_le h1 with h4 | h4
  · exact Or.inl h4
  · exact Or.inr ⟨h4, h2 h4.symm⟩

theorem grahamScan_starts_at_pivot_witness :
    3 ≤ ([⟨1,2⟩, ⟨3,1⟩, ⟨2,4⟩] : List Point2D).length ∧
      (∃ m, (grahamScan [⟨1,2⟩, ⟨3,1⟩, ⟨2,4⟩]).head? = some m ∧
        m ∈ ([⟨1,2⟩, ⟨3,1⟩, ⟨2,4⟩] : List Point2D) ∧
        m ∈ grahamScan [⟨1,2⟩, ⟨3,1⟩, ⟨2,4⟩] ∧
        ∀ p ∈ ([⟨1,2⟩, ⟨3,1⟩, ⟨2,4⟩] : List Point2D),
          m.y < p.y ∨ (m.y = p.y ∧ m.x ≤ p.x)) :=
  ⟨by decide, grahamScan_starts_at_pivot _ (by decide)⟩

/-- C5: for every input of at least 3 points, every vertex of the hull
returned by `graham_scan` is — by exact coordinate equality — one of the
input points. -/
theorem grahamScan_subset (pts : List Point2D) (h3 : 3 ≤ pts.length) :
    ∀ v ∈ grahamScan pts, v ∈ pts := by
  obtain ⟨cs, hG, _, hmem, _, _⟩ := grahamScan_structure pts
  have hne : pts ≠ [] := by intro h; rw [h] at h3; simp at h3
  intro v hv
  rw [hG] at hv
  rcases List.mem_cons.mp hv with rfl | hv
  · exact pyMinYX_mem pts hne
  · exact ((mem_hullOthers pts v).mp (hmem v hv)).1

theorem grahamScan_subset_witness :
    3 ≤ ([⟨0,0⟩, ⟨6,0⟩, ⟨3,5⟩, ⟨3,1⟩] : List Point2D).length ∧
      ∀ v ∈ grahamScan [⟨0,0⟩, ⟨6,0⟩, ⟨3,5⟩, ⟨3,1⟩],
        v ∈ ([⟨0,0⟩, ⟨6,0⟩, ⟨3,5⟩, ⟨3,1⟩] : List Point2D) :=
  ⟨by decide, grahamScan_subset _ (by decide)⟩

/-- C10: for every input of at least 3 points — duplicates allowed — the
hull returned by `graham_scan` has pairwise distinct vertices, and in
particular the pivot occurs exactly once. -/
theorem grahamScan_nodup (pts : List Point2D) (h3 : 3 ≤ pts.length) :
    (grahamScan pts).Nodup ∧ (grahamScan pts).count (hullStart pts) = 1 := by
  obtain ⟨cs, hG, hpw, hmem, _, _⟩ := grahamScan_structure pts
  have hstart_notin : hullStart pts ∉ cs := by
    intro h
    exact ((mem_hullOthers pts _).mp (hmem _ h)).2 rfl
  have hcs : cs.Nodup := by
    apply List.Pairwise.imp ?_ hpw
    intro a b hab hEq
    subst hEq
    unfold angLt at hab
    rw [cross2_self] at hab
    exact lt_irrefl 0 hab
  constructor
  · rw [hG]
    exact List.nodup_cons.mpr ⟨hstart_notin, hcs⟩
  · rw [hG]
    simp [List.count_cons, List.count_eq_zero_of_not_mem hstart_notin]

theorem grahamScan_nodup_witness :
    3 ≤ ([⟨0,0⟩, ⟨0,0⟩, ⟨5,5⟩, ⟨10,0⟩] : List Point2D).length ∧
      ((grahamScan [⟨0,0⟩, ⟨0,0⟩, ⟨5,5⟩, ⟨10,0⟩]).Nodup ∧
        (grahamScan [⟨0,0⟩, ⟨0,0⟩, ⟨5,5⟩, ⟨10,0⟩]).count
          (hullStart [⟨0,0⟩, ⟨0,0⟩, ⟨5,5⟩, ⟨10,0⟩]) = 1) :=
  ⟨by decide, grahamScan_nodup _ (by decide)⟩

/-! ### Collinear inputs -/

/-- When every pair of processed points subtends angle zero at `s`, the
collapse loop keeps exactly one point: a point of maximal distance. -/
theorem collapse_same_angle (s : Point2D) : ∀ (l : List Point2D) (m : Point2D),
    (∀ p ∈ m :: l, ∀ q ∈ m :: l, cross2 s p q = 0) →
    ∃ m2, l.foldl (collapseStep s) [m] = [m2] ∧ m2 ∈ m :: l ∧
      ∀ p ∈ m :: l, distSq s p ≤ distSq s m2 := by
  intro l
  induction l with
  | nil =>
    intro m _
    refine ⟨m, rfl, List.mem_cons_self m [], ?_⟩
    intro p hp
    rcases List.mem_cons.mp hp with rfl | hp
    · exact le_refl _
    · simp at hp
  | cons p l ih =>
    intro m hall
    simp only [List.foldl_cons]
    have hz : cross2 s m p = 0 :=
      hall m (List.mem_cons_self _ _) p
        (List.mem_cons_of_mem m (List.mem_cons_self p l))
    have hstep : collapseStep s [m] p
        = if distSq s m < distSq s p then [p] else [m] := by
      simp only [collapseStep]
      rw [if_pos hz]
    by_cases hd : distSq s m < distSq s p
    · rw [hstep, if_pos hd]
      obtain ⟨m2, heq, hmem, hmax⟩ := ih p (by
        intro a ha b hb
        apply hall
        · rcases List.mem_cons.mp ha with rfl | ha
          · exact List.mem_cons_of_mem m (List.mem_cons_self a l)
          · exact List.mem_cons_of_mem m (List.mem_cons_of_mem p ha)
        · rcases List.mem_cons.mp hb with rfl | hb
          · exact List.mem_cons_of_mem m (List.mem_cons_self b l)
          · exact List.mem_cons_of_mem m (List.mem_cons_of_mem p hb))
      refine ⟨m2, heq, ?_, ?_⟩
      · rcases List.mem_cons.mp hmem with rfl | hmem
        · exact List.mem_cons_of_mem m (List.mem_cons_self m2 l)
        · exact List.mem_cons_of_mem m (List.mem_cons_of_mem p hmem)
      · intro q hq
        rcases List.mem_cons.mp hq with rfl | hq
        · exact le_trans (le_of_lt hd) (hmax p (List.mem_cons_self p l))
        · exact hmax q hq
    · rw [hstep, if_neg hd]
      obtain ⟨m2, heq, hmem, hmax⟩ := ih m (by
        intro a ha b hb
        apply hall
        · rcases List.mem_cons.mp ha with rfl | ha
          · exact List.mem_cons_self a _
          · exact List.mem_cons_of_mem m (List.mem_cons_of_mem p ha)
        · rcases List.mem_cons.mp hb with rfl | hb
          · exact List.mem_cons_self b _
          · exact List.mem_cons_of_mem m (List.mem_cons_of_mem p hb))
      refine ⟨m2, heq, ?_, ?_⟩
      · rcases List.mem_cons.mp hmem with rfl | hmem
        · exact List.mem_cons_self m2 _
        · exact List.mem_cons_of_mem m (List.mem_cons_of_mem p hmem)
      · intro q hq
        rcases List.mem_cons.mp hq with rfl | hq
        · exact hmax q (List.mem_cons_self q l)
        · rcases List.mem_cons.mp hq with rfl | hq
          · exact le_trans (not_lt.mp hd) (hmax m (List.mem_cons_self m l))
          · exact hmax q (List.mem_cons_of_mem m hq)

/-- C9: for every input of at least 3 points in which all points are
collinear, `graham_scan` does not fail: when all points are identical it
returns that single point, otherwise it returns exactly the two extreme
points of the segment (every input point lies between them). -/
theorem grahamScan_collinear (pts : List Point2D) (h3 : 3 ≤ pts.length)
    (hcol : ∀ p ∈ pts, ∀ q ∈ pts, ∀ r ∈ pts, orientation p q r = 0) :
    (∃ a, (∀ p ∈ pts, p = a) ∧ grahamScan pts = [a]) ∨
    (∃ a b, a ≠ b ∧ a ∈ pts ∧ b ∈ pts ∧ grahamScan pts = [a, b] ∧
      ∀ p ∈ pts, ∃ t : ℚ, 0 ≤ t ∧ t ≤ 1 ∧
        p.x - a.x = t * (b.x - a.x) ∧ p.y - a.y = t * (b.y - a.y)) := by
  have hne : pts ≠ [] := by intro h; rw [h] at h3; simp at h3
  have hsmem : hullStart pts ∈ pts := pyMinYX_mem pts hne
  have hcross : ∀ p ∈ pts, ∀ q ∈ pts, cross2 (hullStart pts) p q = 0 := by
    intro p hp q hq
    have h := hcol (hullStart pts) hsmem p hp q hq
    rw [orientation_eq_zero_iff] at h
    have h2 := orientationVal_eq_neg_cross2 (hullStart pts) p q
    linarith
  cases hothers : hullOthers pts with
  | nil =>
    left
    have hallp : ∀ p ∈ pts, p = hullStart pts := by
      intro p hp
      by_contra hne2
      have h5 : p ∈ hullOthers pts := (mem_hullOthers pts p).mpr ⟨hp, hne2⟩
      rw [hothers] at h5
      simp at h5
    have hsorted : hullSorted pts = [] := by
      unfold hullSorted
      rw [hothers]
      rfl
    have hfil : hullFiltered pts = [] := by
      unfold hullFiltered
      rw [hsorted]
      rfl
    refine ⟨hullStart pts, hallp, ?_⟩
    unfold grahamScan
    rw [hfil]
  | cons m0 ltail =>
    right
    have hsortmem : ∀ x ∈ hullSorted pts, x ∈ hullOthers pts :=
      fun x hx => (mem_hullSorted pts x).mp hx
    cases hsorted_eq : hullSorted pts with
    | nil =>
      exfalso
      have h5 := hullSorted_perm pts
      rw [hsorted_eq, hothers] at h5
      have h6 := h5.nil_eq
      simp at h6
    | cons n0 ntail =>
      obtain ⟨m2, hfold, hm2mem, hmax⟩ := collapse_same_angle (hullStart pts)
        ntail n0
        (by
          intro a ha b hb
          apply hcross
          · exact ((mem_hullOthers pts a).mp
              (hsortmem a (hsorted_eq ▸ ha))).1
          · exact ((mem_hullOthers pts b).mp
              (hsortmem b (hsorted_eq ▸ hb))).1)
      have hfil : hullFiltered pts = [m2] := by
        unfold hullFiltered removeSameAnglePoints
        rw [hsorted_eq]
        simp only [List.foldl_cons]
        rw [show collapseStep (hullStart pts) [] n0 = [n0] from rfl]
        rw [hfold]
        rfl
      have hG : grahamScan pts = [hullStart pts, m2] := by
        unfold grahamScan
        rw [hfil]
      have hm2others : m2 ∈ hullOthers pts := by
        rcases List.mem_cons.mp hm2mem with rfl | h
        · exact hsortmem m2 (hsorted_eq ▸ List.mem_cons_self _ _)
        · exact hsortmem m2 (hsorted_eq ▸ List.mem_cons_of_mem n0 h)
      obtain ⟨hm2pts, hm2ne⟩ := (mem_hullOthers pts m2).mp hm2others
      have hm2hp : halfPlane (hullStart pts) m2 :=
        halfPlane_of_mem pts m2 hm2pts hm2ne
      refine ⟨hullStart pts, m2, fun h => hm2ne h.symm, hsmem, hm2pts, hG, ?_⟩
      intro p hp
      by_cases hps : p = hullStart pts
      · exact ⟨0, le_refl 0, by norm_num, by rw [hps]; ring, by rw [hps]; ring⟩
      · have hpothers : p ∈ hullOthers pts := (mem_hullOthers pts p).mpr ⟨hp, hps⟩
        have hphp : halfPlane (hullStart pts) p := halfPlane_of_mem pts p hp hps
        have hzc : cross2 (hullStart pts) m2 p = 0 := hcross m2 hm2pts p hp
        have hdle : distSq (hullStart pts) p ≤ distSq (hullStart pts) m2 := by
          apply hmax
          have h7 : p ∈ hullSorted pts := (mem_hullSorted pts p).mpr hpothers
          rw [hsorted_eq] at h7
          exact h7
        have hDpos : 0 < distSq (hullStart pts) m2 :=
          distSq_pos _ m2 (fun h => hm2ne h.symm)
        rcases hm2hp with hm2y | ⟨hm2y, hm2x⟩
        · -- m2 strictly above the pivot
          have hdpos : 0 < m2.y - (hullStart pts).y := by linarith
          set t : ℚ := (p.y - (hullStart pts).y) / (m2.y - (hullStart pts).y)
            with htdef
          have hy2 : p.y - (hullStart pts).y = t * (m2.y - (hullStart pts).y) := by
            rw [htdef]
            field_simp
          have hx2 : p.x - (hullStart pts).x = t * (m2.x - (hullStart pts).x) := by
            rw [htdef, div_mul_eq_mul_div, eq_div_iff (ne_of_gt hdpos)]
            unfold cross2 at hzc
            linear_combination -hzc
          have ht0 : 0 ≤ t := by
            rw [htdef]
            exact div_nonneg (by linarith [halfPlane_y _ p hphp]) (le_of_lt hdpos)
          have hsq : distSq (hullStart pts) p
              = t * t * distSq (hullStart pts) m2 := by
            unfold distSq
            linear_combination
              ((p.x - (hullStart pts).x)
                + t * (m2.x - (hullStart pts).x)) * hx2 +
              ((p.y - (hullStart pts).y)
                + t * (m2.y - (hullStart pts).y)) * hy2
          have h8 : t * t * distSq (hullStart pts) m2
              ≤ distSq (hullStart pts) m2 := by
            rw [← hsq]; exact hdle
          have ht1 : t ≤ 1 := by
            by_contra hgt
            push_neg at hgt
            have h9 : 0 < t * t - 1 := by nlinarith
            nlinarith [mul_pos h9 hDpos]
          exact ⟨t, ht0, ht1, hx2, hy2⟩
        · -- m2 horizontally right of the pivot
          have hpy : p.y = (hullStart pts).y := by
            rw [cross2_horiz_left _ m2 p hm2y.symm] at hzc
            rcases mul_eq_zero.mp hzc with h | h
            · exact absurd h (by intro h10; linarith)
            · linarith
          have hpx : (hullStart pts).x < p.x := halfPlane_x _ p hphp hpy
          have hdpos : 0 < m2.x - (hullStart pts).x := by linarith
          set t : ℚ := (p.x - (hullStart pts).x) / (m2.x - (hullStart pts).x)
            with htdef
          have hx2 : p.x - (hullStart pts).x = t * (m2.x - (hullStart pts).x) := by
            rw [htdef]
            field_simp
          have hy2 : p.y - (hullStart pts).y = t * (m2.y - (hullStart pts).y) := by
            rw [hpy, show m2.y = (hullStart pts).y from hm2y.symm]
            ring
          have ht0 : 0 ≤ t := by
            rw [htdef]
            exact div_nonneg (by linarith) (le_of_lt hdpos)
          have ht1 : t ≤ 1 := by
            rw [htdef, div_le_one hdpos]
            unfold distSq at hdle
            nlinarith [hdle]
          exact ⟨t, ht0, ht1, hx2, hy2⟩

theorem grahamScan_collinear_witness :
    (3 ≤ ([⟨0,0⟩, ⟨2,0⟩, ⟨5,0⟩] : List Point2D).length ∧
      (∀ p ∈ ([⟨0,0⟩, ⟨2,0⟩, ⟨5,0⟩] : List Point2D),
        ∀ q ∈ ([⟨0,0⟩, ⟨2,0⟩, ⟨5,0⟩] : List Point2D),
        ∀ r ∈ ([⟨0,0⟩, ⟨2,0⟩, ⟨5,0⟩] : List Point2D),
          orientation p q r = 0)) ∧
    ((∃ a, (∀ p ∈ ([⟨0,0⟩, ⟨2,0⟩, ⟨5,0⟩] : List Point2D), p = a) ∧
        grahamScan [⟨0,0⟩, ⟨2,0⟩, ⟨5,0⟩] = [a]) ∨
      (∃ a b, a ≠ b ∧ a ∈ ([⟨0,0⟩, ⟨2,0⟩, ⟨5,0⟩] : List Point2D) ∧
        b ∈ ([⟨0,0⟩, ⟨2,0⟩, ⟨5,0⟩] : List Point2D) ∧
        grahamScan [⟨0,0⟩, ⟨2,0⟩, ⟨5,0⟩] = [a, b] ∧
        ∀ p ∈ ([⟨0,0⟩, ⟨2,0⟩, ⟨5,0⟩] : List Point2D), ∃ t : ℚ,
          0 ≤ t ∧ t ≤ 1 ∧ p.x - a.x = t * (b.x - a.x) ∧
          p.y - a.y = t * (b.y - a.y))) :=
  ⟨⟨by decide, by
      intro p hp q hq r hr
      fin_cases hp <;> fin_cases hq <;> fin_cases hr <;>
        norm_num [orientation, orientationVal]⟩,
    grahamScan_collinear _ (by decide) (by
      intro p hp q hq r hr
      fin_cases hp <;> fin_cases hq <;> fin_cases hr <;>
        norm_num [orientation, orientationVal])⟩

/-! ### Determinism under permutation of the input -/

theorem pyMinYX_perm (l1 l2 : List Point2D) (hne : l1 ≠ []) (hp : l1.Perm l2) :
    pyMinYX l1 = pyMinYX l2 := by
  have hne2 : l2 ≠ [] := by
    intro h
    rw [h] at hp
    exact hne hp.eq_nil
  have h1 := pyMinYX_mem l1 hne
  have h2 := pyMinYX_mem l2 hne2
  have h3 : pyMinYX l2 ∈ l1 := hp.mem_iff.mpr h2
  have h4 : pyMinYX l1 ∈ l2 := hp.subset h1
  have h5 := pyMinYX_not_lt l1 (pyMinYX l2) h3
  have h6 := pyMinYX_not_lt l2 (pyMinYX l1) h4
  unfold yxLt at h5 h6
  push_neg at h5 h6
  obtain ⟨h5y, h5x⟩ := h5
  obtain ⟨h6y, h6x⟩ := h6
  have hy : (pyMinYX l1).y = (pyMinYX l2).y := le_antisymm h5y h6y
  exact point2D_ext _ _ (le_antisymm (h5x hy.symm) (h6x hy)) hy

/-- C8: for every valid input and every permutation of it, `graham_scan`
returns the identical vertex sequence: the computation is a
deterministic function of the input point multiset. -/
theorem grahamScan_perm_invariant (pts1 pts2 : List Point2D)
    (h3 : 3 ≤ pts1.length) (hp : pts1.Perm pts2) :
    grahamScan pts1 = grahamScan pts2 := by
  have hne : pts1 ≠ [] := by intro h; rw [h] at h3; simp at h3
  have hs : hullStart pts1 = hullStart pts2 := pyMinYX_perm pts1 pts2 hne hp
  have hothers2 : hullOthers pts2
      = pts2.filter (fun p => decide (p ≠ hullStart pts1)) := by
    unfold hullOthers
    rw [hs]
  have hopm : (hullOthers pts1).Perm (hullOthers pts2) := by
    rw [hothers2]
    unfold hullOthers
    exact hp.filter _
  have hsorted2 : hullSorted pts2
      = List.insertionSort (sortRel (hullStart pts1)) (hullOthers pts2) := by
    unfold hullSorted
    rw [hs]
  have hsorted : hullSorted pts1 = hullSorted pts2 := by
    apply sorted_unique_hp (hullStart pts1)
    · exact (hullSorted_perm pts1).trans
        (hopm.trans (hullSorted_perm pts2).symm)
    · exact hullSorted_sorted pts1
    · have h7 := hullSorted_sorted pts2
      rw [← hs] at h7
      exact h7
    · intro x hx
      exact halfPlane_hullOthers pts1 x ((mem_hullSorted pts1 x).mp hx)
  have hfil : hullFiltered pts1 = hullFiltered pts2 := by
    unfold hullFiltered
    rw [hs, hsorted]
  unfold grahamScan
  rw [hfil, hs]

theorem grahamScan_perm_invariant_witness :
    (3 ≤ ([⟨0,0⟩, ⟨3,0⟩, ⟨0,4⟩, ⟨1,1⟩] : List Point2D).length ∧
      ([⟨0,0⟩, ⟨3,0⟩, ⟨0,4⟩, ⟨1,1⟩] : List Point2D).Perm
        [⟨1,1⟩, ⟨0,4⟩, ⟨3,0⟩, ⟨0,0⟩]) ∧
    grahamScan [⟨0,0⟩, ⟨3,0⟩, ⟨0,4⟩, ⟨1,1⟩]
      = grahamScan [⟨1,1⟩, ⟨0,4⟩, ⟨3,0⟩, ⟨0,0⟩] :=
  ⟨⟨by decide, by decide⟩,
    grahamScan_perm_invariant _ _ (by decide) (by decide)⟩

/-! ### The primitives, the constructor, the dispatcher, the metrics -/

/-- C7: `orientation` computes the cross product
`(q.y−p.y)*(r.x−q.x) − (q.x−p.x)*(r.y−q.y)` (here `orientationVal`) and
classifies: zero gives 0 = Collinear, positive gives 1 = Clockwise,
negative gives 2 = CounterClockwise; and `ccw(p1,p2,p3)` is true iff
`orientation(p1,p2,p3)` is CounterClockwise. -/
theorem orientation_ccw_spec (p q r : Point2D) :
    (orientation p q r = 0 ↔ orientationVal p q r = 0) ∧
    (orientation p q r = 1 ↔ 0 < orientationVal p q r) ∧
    (orientation p q r = 2 ↔ orientationVal p q r < 0) ∧
    (ccw p q r = true ↔ orientation p q r = 2) := by
  refine ⟨orientation_eq_zero_iff p q r, ?_, ?_, ?_⟩
  · unfold orientation
    split_ifs with h1 h2
    · constructor
      · intro h; exact absurd h (by decide)
      · intro h; linarith
    · constructor
      · intro _; exact h2
      · intro _; rfl
    · constructor
      · intro h; exact absurd h (by decide)
      · intro h; exact absurd h h2
  · unfold orientation
    split_ifs with h1 h2
    · constructor
      · intro h; exact absurd h (by decide)
      · intro h; linarith
    · constructor
      · intro h; exact absurd h (by decide)
      · intro h; linarith
    · constructor
      · intro _
        push_neg at h2
        rcases lt_or_eq_of_le h2 with h | h
        · exact h
        · exact absurd h h1
      · intro _; rfl
  · unfold ccw
    rw [decide_eq_true_eq]

/-- C6: constructing a `ConvexHull2D` fails with the invalid-input error
exactly when the list has fewer than 3 points (duplicates counted), the
check happens at construction time, and on success the input is stored
unchanged (never padded or coerced) with an empty hull cache. -/
theorem convexHull2D_init_spec (pts : List Point2D) :
    (ConvexHull2D.init pts = Except.error HullError.invalidInput ↔
      pts.length < 3) ∧
    (3 ≤ pts.length → ConvexHull2D.init pts
      = Except.ok { points := pts, hull := [] }) := by
  unfold ConvexHull2D.init
  constructor
  · split_ifs with h
    · simp [h]
    · constructor
      · intro hc; exact absurd hc (by simp)
      · intro hc; exact absurd hc h
  · intro h
    rw [if_neg (by omega)]

theorem convexHull2D_init_spec_witness :
    ConvexHull2D.init [⟨0,0⟩, ⟨1,0⟩, ⟨0,1⟩]
      = Except.ok { points := [⟨0,0⟩, ⟨1,0⟩, ⟨0,1⟩], hull := [] } :=
  (convexHull2D_init_spec _).2 (by decide)

/-- C1 (code bug): dispatching `compute_convex_hull` with the "quick"
identifier reaches the `quick_hull` stub, whose body is `pass`, and so
the call silently returns `None` instead of surfacing a clear
not-implemented failure as the specification demands. -/
theorem compute_convex_hull_quick_returns_none :
    ∀ pts : List Point2D, compute_convex_hull pts "quick" = Except.ok none :=
  fun _ => rfl

/-- C2 counterexample: on a fresh engine for the 10×10 square, `area()`
returns 0.0 (it reads the empty cached hull and triggers no
computation), while calling `compute_hull` first makes it return 100.0 —
so the fresh-engine value is not the hull area. -/
theorem area_before_compute_counterexample :
    ConvexHull2D.init [⟨0,0⟩, ⟨10,0⟩, ⟨10,10⟩, ⟨0,10⟩]
      = Except.ok { points := [⟨0,0⟩, ⟨10,0⟩, ⟨10,10⟩, ⟨0,10⟩], hull := [] } ∧
    ConvexHull2D.get_hull_area
      { points := [⟨0,0⟩, ⟨10,0⟩, ⟨10,10⟩, ⟨0,10⟩], hull := [] } = 0 ∧
    ConvexHull2D.get_hull_area
      (ConvexHull2D.compute_hull
        { points := [⟨0,0⟩, ⟨10,0⟩, ⟨10,10⟩, ⟨0,10⟩], hull := [] }).2 = 100 ∧
    (0 : ℚ) ≠ 100 := by
  refine ⟨rfl, rfl, ?_, by norm_num⟩
  have hG : grahamScan [⟨0,0⟩, ⟨10,0⟩, ⟨10,10⟩, ⟨0,10⟩]
      = [⟨0,0⟩, ⟨10,0⟩, ⟨10,10⟩, ⟨0,10⟩] := by
    norm_num [grahamScan, hullFiltered, hullSorted, hullOthers, hullStart,
      pyMinYX, yxLt, List.insertionSort, List.orderedInsert, sortRel, cross2,
      distSq, removeSameAnglePoints, collapseStep, scanStep, ccw, orientation,
      orientationVal, List.foldl, List.filter, Point2D.mk.injEq]
  unfold ConvexHull2D.compute_hull ConvexHull2D.graham_scan
  norm_num [hG, ConvexHull2D.get_hull_area, List.rotate]

/-- C2 amended: before any hull computation the cached hull is empty, so
`get_hull_area` and `get_hull_perimeter` return 0.0; no implicit hull
computation is triggered (the claimed "same values as if computeHull had
been called first" fails, see the counterexample). -/
theorem metrics_before_compute_zero (pts : List Point2D) (st : ConvexHull2D)
    (h : ConvexHull2D.init pts = Except.ok st) :
    ConvexHull2D.get_hull_area st = 0 ∧
    ConvexHull2D.get_hull_perimeter st = 0 := by
  unfold ConvexHull2D.init at h
  by_cases h1 : pts.length < 3
  · rw [if_pos h1] at h
    exact absurd h (by simp)
  · rw [if_neg h1] at h
    have h2 : st = { points := pts, hull := [] } := by
      injection h with h3
      exact h3.symm
    subst h2
    exact ⟨rfl, rfl⟩

theorem metrics_before_compute_zero_witness :
    ConvexHull2D.init [⟨0,0⟩, ⟨2,0⟩, ⟨0,2⟩]
      = Except.ok { points := [⟨0,0⟩, ⟨2,0⟩, ⟨0,2⟩], hull := [] } ∧
    (ConvexHull2D.get_hull_area
        { points := [⟨0,0⟩, ⟨2,0⟩, ⟨0,2⟩], hull := ([] : List Point2D) } = 0 ∧
      ConvexHull2D.get_hull_perimeter
        { points := [⟨0,0⟩, ⟨2,0⟩, ⟨0,2⟩], hull := ([] : List Point2D) } = 0) :=
  ⟨rfl, metrics_before_compute_zero [⟨0,0⟩, ⟨2,0⟩, ⟨0,2⟩]
    { points := [⟨0,0⟩, ⟨2,0⟩, ⟨0,2⟩], hull := [] } rfl⟩
